import Mathlib

set_option maxHeartbeats 1000000

/-!
Verification of the WordSearch GUI result-interchange and search-invoker
logic (src/search_gui.py), shallowly embedded in Lean.

Strings are modelled as lists of characters (abbrev Str).  Python string
primitives used by the program (str.strip, str.split, the substring test
of the in operator) are embedded below; str.strip is modelled over the
ASCII whitespace characters (space, tab, newline, carriage return,
vertical tab, form feed), the subset relevant to this program's inputs.
-/

namespace WordSearch

abbrev Str := List Char

/-- Whitespace predicate backing the model of Python str.strip:
the six ASCII whitespace characters. -/
def pyIsSpace (c : Char) : Bool :=
  c = ' ' || c = '\t' || c = '\n' || c = '\r' || c = '\x0b' || c = '\x0c'

/-- Model of Python str.lstrip() (no argument): drop leading whitespace. -/
def pyStripLeft (s : Str) : Str := s.dropWhile pyIsSpace

/-- Model of Python str.rstrip() (no argument): drop trailing whitespace. -/
def pyStripRight (s : Str) : Str := (s.reverse.dropWhile pyIsSpace).reverse

/-- Model of Python str.strip() (no argument): drop whitespace at both ends. -/
def pyStrip (s : Str) : Str := pyStripRight (pyStripLeft s)

/-- Model of Python s.split with separator newline: split into the
(always nonempty) list of newline-separated pieces. -/
def pySplitNL : Str → List Str
  | [] => [[]]
  | c :: t =>
    if c = '\n' then [] :: pySplitNL t
    else
      match pySplitNL t with
      | l :: ls => (c :: l) :: ls
      | [] => [[c]]

/-- Model of the Python substring test, needle in hay. -/
def pyIn (n : Str) : Str → Bool
  | [] => n.isEmpty
  | c :: t => n.isPrefixOf (c :: t) || pyIn n t

/-- Lines kept by the loop of prepare_search_files in src/search_gui.py:
each line of the text split on newline is stripped, and blank lines are
dropped; order is preserved. -/
def keptLines (s : Str) : List Str :=
  ((pySplitNL s).map pyStrip).filter (fun l => l ≠ [])

/-- File content produced by writing each kept line followed by a newline,
as the loop f.write of prepare_search_files does. -/
def joinLines (ls : List Str) : Str :=
  (ls.map (fun l => l ++ ['\n'])).flatten

/-- Content of one of the two list files (.terms_list or .regex_list)
after prepare_search_files runs, given the previous on-disk content
(none when the file does not exist) and the text-box input.  Faithful to
src/search_gui.py lines 739-756: the input is stripped; when the result
is empty the file is not touched; otherwise the file is opened in write
mode (overwriting) and each stripped non-blank line of the stripped text
is written followed by a newline. -/
def listFileAfter (prev : Option Str) (input : Str) : Option Str :=
  if pyStrip input = [] then prev
  else some (joinLines (keptLines (pyStrip input)))

/-!
CSV layer.  save_as_csv writes through Python csv.writer with the default
dialect (delimiter comma, quote character double quote, QUOTE_MINIMAL,
record terminator CR LF) on a file opened with newline kept verbatim.
load_results reads through Python csv.reader on a file opened in text
mode WITHOUT newline control, so the io layer applies universal-newline
decoding (CR LF and lone CR both become LF) before the reader sees the
characters; the reader therefore only ever sees LF as a line end.
-/

/-- Fields that csv.writer quotes under QUOTE_MINIMAL: those containing
the delimiter, the quote character, or a character of the CR LF record
terminator. -/
def needsQuote (f : Str) : Bool :=
  f.any (fun c => c = ',' || c = '"' || c = '\r' || c = '\n')

/-- Quote-escaping applied inside a quoted field: each double quote is
doubled. -/
def escQ : Str → Str
  | [] => []
  | c :: t => if c = '"' then '"' :: '"' :: escQ t else c :: escQ t

/-- One field as csv.writer emits it: quoted with escaping when needed,
verbatim otherwise. -/
def writeField (f : Str) : Str :=
  if needsQuote f then '"' :: (escQ f ++ ['"']) else f

/-- The body of one record: fields joined by the comma delimiter.  (The
records this program writes always have six fields, so the writer's
special case for a single empty field never triggers.) -/
def writeRecBody : List Str → Str
  | [] => []
  | [f] => writeField f
  | f :: g :: t => writeField f ++ ',' :: writeRecBody (g :: t)

/-- One record as written to the file: body followed by CR LF, the
default csv.writer record terminator. -/
def writeRecCRLF (r : List Str) : Str := writeRecBody r ++ ['\r', '\n']

/-- One record followed by a bare LF: what the reader side sees after
universal-newline decoding of a CR-LF-terminated record. -/
def writeRecLF (r : List Str) : Str := writeRecBody r ++ ['\n']

/-- Universal-newline decoding performed by the text-mode file object in
load_results (the file is opened without a newline argument): CR LF
becomes LF and a lone CR becomes LF. -/
def univNL : Str → Str
  | [] => []
  | ['\r'] => ['\n']
  | '\r' :: '\n' :: t => '\n' :: univNL t
  | '\r' :: c :: t => '\n' :: univNL (c :: t)
  | c :: t => c :: univNL t

/-- Parser states of the csv.reader state machine (default dialect,
non-strict), restricted to its behaviour on LF-terminated input, which
is all the universal-newline file object can deliver.  startF carries
whether the machine is at the very start of a record (where a bare LF is
a blank line yielding an empty record rather than a one-field record). -/
inductive PState : Type
  | startF (first : Bool)
  | inF
  | inQ
  | quoteQ
deriving Repr, DecidableEq

/-- The csv.reader state machine.  f is the field accumulated so far, fs
the fields of the current record.  Mirrors the transitions of the CPython
reader for the default dialect: a quote opens a quoted field only at
field start; inside quotes a doubled quote is a literal quote; in the
non-strict default a stray character after a closing quote is appended
and parsing continues unquoted; at end of input an open record is
finalized (including an unterminated quoted field). -/
def parseAux : PState → Str → List Str → Str → List (List Str)
  | .startF first, f, fs, [] => if first then [] else [fs ++ [f]]
  | .inF, f, fs, [] => [fs ++ [f]]
  | .inQ, f, fs, [] => [fs ++ [f]]
  | .quoteQ, f, fs, [] => [fs ++ [f]]
  | .startF first, f, fs, c :: t =>
    if c = '"' then parseAux .inQ f fs t
    else if c = ',' then parseAux (.startF false) [] (fs ++ [f]) t
    else if c = '\n' then
      if first then [] :: parseAux (.startF true) [] [] t
      else (fs ++ [f]) :: parseAux (.startF true) [] [] t
    else parseAux .inF (f ++ [c]) fs t
  | .inF, f, fs, c :: t =>
    if c = ',' then parseAux (.startF false) [] (fs ++ [f]) t
    else if c = '\n' then (fs ++ [f]) :: parseAux (.startF true) [] [] t
    else parseAux .inF (f ++ [c]) fs t
  | .inQ, f, fs, c :: t =>
    if c = '"' then parseAux .quoteQ f fs t
    else parseAux .inQ (f ++ [c]) fs t
  | .quoteQ, f, fs, c :: t =>
    if c = '"' then parseAux .inQ (f ++ [c]) fs t
    else if c = ',' then parseAux (.startF false) [] (fs ++ [f]) t
    else if c = '\n' then (fs ++ [f]) :: parseAux (.startF true) [] [] t
    else parseAux .inF (f ++ [c]) fs t

/-- All records of a character stream as csv.reader yields them. -/
def csvParse (s : Str) : List (List Str) := parseAux (.startF true) [] [] s

/-!
Table model.  The results table has six columns; a cell is an optional
string (a QTableWidgetItem is present or not), and reading a cell's text
through item-or-empty gives the empty string for an absent item, as both
save_as_csv and save_as_text do.
-/

/-- One row of the results table: six optional cells. -/
abbrev Row := List (Option Str)

/-- Cell of a table row at a column index: the item set there, if any.
Models results_table.item(row, col). -/
def getItem (r : Row) (c : Nat) : Option Str := (r.get? c).bind id

/-- Text of a cell as the savers read it: item text when present, empty
string otherwise. -/
def cellText (o : Option Str) : Str := o.getD []

/-- The six field texts of a table row, as the loop over the six columns
in save_as_csv collects them. -/
def rowFields (r : Row) : List Str :=
  (List.range 6).map (fun c => cellText (getItem r c))

/-- Row built by load_results from one CSV record: enumeration over the
first six fields sets one item per present field, later cells of the
fresh row stay unset. -/
def mkRow (rec : List Str) : Row :=
  (List.range 6).map (fun c => rec.get? c)

/-- The six header labels of the results table, set in init_ui and
written as the first record by save_as_csv. -/
def csvHeaderLabels : List Str :=
  [String.toList "Type", String.toList "File Path", String.toList "File Name",
   String.toList "Line", String.toList "Term", String.toList "Match"]

/-- Table produced by load_results from the character content of
search_results.csv: the file object decodes universal newlines, the
reader yields records, the first record is skipped as header, and each
remaining record becomes a row of at most its first six fields. -/
def loadTable (content : Str) : List Row :=
  ((csvParse (univNL content)).drop 1).map mkRow

/-- File content produced by save_as_csv from a table: the header record
followed by one record of the six cell texts per row, each record
CR-LF-terminated, written without newline translation. -/
def saveCsv (table : List Row) : Str :=
  writeRecCRLF csvHeaderLabels ++
    (table.map (fun r => writeRecCRLF (rowFields r))).flatten

/-!
Summary counters (update_summary), the load outcome, the worker thread
(SearchThread.run) and the start-search state machine.
-/

/-- The literal substring FileName scanned for by update_summary. -/
def fileNameLit : Str := String.toList "FileName"

/-- The literal substring Content scanned for by update_summary. -/
def contentLit : Str := String.toList "Content"

/-- The counting loop of update_summary over the first-column cells, with
the two running counters: an absent item is skipped; a text containing
FileName increments the first counter, otherwise a text containing
Content increments the second, otherwise neither. -/
def summaryAux (fn ct : Nat) : List (Option Str) → Nat × Nat
  | [] => (fn, ct)
  | none :: rest => summaryAux fn ct rest
  | some s :: rest =>
    if pyIn fileNameLit s then summaryAux (fn + 1) ct rest
    else if pyIn contentLit s then summaryAux fn (ct + 1) rest
    else summaryAux fn ct rest

/-- The two counters computed by update_summary from the first column. -/
def summaryCounts (col : List (Option Str)) : Nat × Nat := summaryAux 0 0 col

/-- First column of the table, as update_summary reads it. -/
def col0 (table : List Row) : List (Option Str) :=
  table.map (fun r => getItem r 0)

/-- Outcome of a call of load_results, given the content of
search_results.csv when the file exists (none when absent) and the table
before the call: the table afterwards, whether the warning dialog was
shown, and the summary totals passed to update_summary when it ran
(total matches, filename matches, content matches).  Faithful to
src/search_gui.py lines 785-807: an absent file returns at once; an
existing file is parsed, the table replaced, and the summary updated; the
pure parse raises no exception, so the warning dialog (reserved for io
and decoding errors outside this model) is never shown here. -/
def loadOutcome (file : Option Str) (table : List Row) :
    List Row × Bool × Option (Nat × Nat × Nat) :=
  match file with
  | none => (table, false, none)
  | some content =>
    let t := loadTable content
    let c := summaryCounts (col0 t)
    (t, false, some (t.length, c.1, c.2))

/-- What the spawn of the external script produced: either the child ran
to completion with an exit code and captured output streams, or the
spawn raised an exception with a message. -/
inductive SpawnOutcome : Type
  | completed (exitCode : Int) (stdout stderr : Str)
  | raised (msg : Str)

/-- The three signals a SearchThread can emit. -/
inductive ThreadSignal : Type
  | progress (s : Str)
  | finished (s : Str)
  | error (s : Str)
deriving DecidableEq

/-- Whether a signal is an outcome signal (finished or error) rather
than a progress signal. -/
def ThreadSignal.isOutcome : ThreadSignal → Bool
  | .progress _ => false
  | .finished _ => true
  | .error _ => true

/-- The signals emitted by SearchThread.run, in order, for a given spawn
outcome.  Faithful to src/search_gui.py lines 31-58: a progress signal
first; then, on exit code zero the finished signal with the captured
stdout, on nonzero exit the error signal with the Error prefix and the
captured stderr; an exception of the spawn is caught and emitted as an
error signal with the Failed-to-run prefix and the exception message. -/
def runThread : SpawnOutcome → List ThreadSignal
  | .completed code out err =>
    [.progress (String.toList "Starting search..."),
     if code = 0 then .finished out
     else .error (String.toList "Error: " ++ err)]
  | .raised m =>
    [.progress (String.toList "Starting search..."),
     .error (String.toList "Failed to run search: " ++ m)]

/-- Application state relevant to the start-search path: the worker
threads created so far, most recent first, each marked running or not
(self.search_thread is the head, none existing initially), the two
list files, the results table, and the number of subprocess spawns
performed. -/
structure AppState : Type where
  threads : List Bool
  termsFile : Option Str
  regexFile : Option Str
  table : List Row
  spawns : Nat
deriving DecidableEq

/-- The guard of start_search: self.search_thread is truthy and
isRunning().  The reference, when set, is the most recently created
thread. -/
def searchRunning (st : AppState) : Bool := st.threads.head? = some true

/-- Effect of one start_search call with the current text of the two
boxes.  Faithful to src/search_gui.py lines 696-737: when a thread
exists and is running, return immediately; otherwise write the two list
files via prepare_search_files, clear the results, create and start a
new worker thread, and spawn the subprocess. -/
def startSearch (st : AppState) (terms regex : Str) : AppState :=
  if searchRunning st then st
  else
    { threads := true :: st.threads
      termsFile := listFileAfter st.termsFile terms
      regexFile := listFileAfter st.regexFile regex
      table := []
      spawns := st.spawns + 1 }

/-- Number of running worker threads. -/
def runningCount (st : AppState) : Nat := st.threads.countP (fun b => b)

/-- Events of the GUI lifecycle affecting the worker threads: a
start-search request with the box texts, or the completion (successful
or failed) of the worker at a given index, which marks it not running
and lets the finished handler replace the table. -/
inductive AppEvent : Type
  | start (terms regex : Str)
  | done (i : Nat) (newTable : List Row)

/-- One transition of the GUI state. -/
def appStep (st : AppState) : AppEvent → AppState
  | .start terms regex => startSearch st terms regex
  | .done i newTable =>
    { st with threads := st.threads.set i false, table := newTable }

/-- The initial state: no thread has ever been created, no file is known
to exist, the table is empty. -/
def initState : AppState :=
  { threads := [], termsFile := none, regexFile := none, table := [], spawns := 0 }

/-- States reachable from the initial state by GUI events. -/
inductive Reachable : AppState → Prop
  | init : Reachable initState
  | step (st : AppState) (e : AppEvent) : Reachable st → Reachable (appStep st e)

/-- A string without carriage returns. -/
def noCR (s : Str) : Prop := ∀ c ∈ s, c ≠ '\r'

/-- Appending one character to the last piece of a split, as appending a
non-newline character to the text does. -/
def appendLast (c : Char) : List Str → List Str
  | [] => [[c]]
  | [l] => [l ++ [c]]
  | l :: m :: ls => l :: appendLast c (m :: ls)

/-- The concrete three-row table of claim C8: first-column values
FileName match, Content match, FileName match. -/
def summaryExampleTable : List Row :=
  [mkRow [String.toList "FileName match", String.toList "/tmp/a",
          String.toList "a.txt", String.toList "", String.toList "x",
          String.toList "a.txt"],
   mkRow [String.toList "Content match", String.toList "/tmp/b",
          String.toList "b.txt", String.toList "3", String.toList "x",
          String.toList "x marks"],
   mkRow [String.toList "FileName match", String.toList "/tmp/c",
          String.toList "c.txt", String.toList "", String.toList "x",
          String.toList "c.txt"]]

/-!
Helper lemmas about the thread bookkeeping.
-/

theorem countP_le_one_of_tail_false (l : List Bool)
    (h : ∀ b ∈ l.tail, b = false) : l.countP (fun b => b) ≤ 1 := by
  cases l with
  | nil => simp
  | cons b t =>
    have ht : t.countP (fun b => b) = 0 := by
      rw [List.countP_eq_zero]
      intro a ha
      simp [h a ha]
    rw [List.countP_cons, ht]
    cases b <;> simp

theorem all_false_of_not_running (st : AppState)
    (hr : searchRunning st = false)
    (h : ∀ b ∈ st.threads.tail, b = false) : ∀ b ∈ st.threads, b = false := by
  intro b hb
  cases hl : st.threads with
  | nil => rw [hl] at hb; simp at hb
  | cons c t =>
    rw [hl] at hb
    rcases List.mem_cons.mp hb with h1 | h2
    · subst h1
      unfold searchRunning at hr
      rw [hl] at hr
      simpa using hr
    · exact h b (by rw [hl]; exact h2)

theorem tail_false_step (st : AppState) (e : AppEvent)
    (h : ∀ b ∈ st.threads.tail, b = false) :
    ∀ b ∈ (appStep st e).threads.tail, b = false := by
  cases e with
  | start terms regex =>
    show ∀ b ∈ (startSearch st terms regex).threads.tail, b = false
    by_cases hr : searchRunning st
    · rw [startSearch, if_pos hr]
      exact h
    · rw [startSearch, if_neg hr]
      exact all_false_of_not_running st (by simpa using hr) h
  | done i newTable =>
    show ∀ b ∈ (st.threads.set i false).tail, b = false
    cases hl : st.threads with
    | nil => simp
    | cons c t =>
      cases i with
      | zero =>
        simp only [List.set]
        intro b hb
        exact h b (by rw [hl]; exact hb)
      | succ j =>
        simp only [List.set, List.tail_cons]
        intro b hb
        rcases List.mem_or_eq_of_mem_set hb with h1 | h2
        · exact h b (by rw [hl]; exact h1)
        · exact h2

theorem tail_false_reachable (st : AppState) (h : Reachable st) :
    ∀ b ∈ st.threads.tail, b = false := by
  induction h with
  | init => intro b hb; simp [initState] at hb
  | step st e _ ih => exact tail_false_step st e ih

/-!
Claim theorems.
-/

/-- C4: SearchThread.run delivers exactly one outcome signal per spawn:
the finished signal with the captured stdout on exit code zero, the
error signal carrying the captured stderr on nonzero exit, and, when the
spawn raises, an error signal carrying the exception message; the
exception never propagates (runThread is total and always yields exactly
one outcome signal). -/
theorem searchThread_outcome_delivery :
    (∀ r : SpawnOutcome,
      ((runThread r).filter ThreadSignal.isOutcome).length = 1) ∧
    (∀ (code : Int) (out err : Str), code = 0 →
      (runThread (.completed code out err)).filter ThreadSignal.isOutcome
        = [.finished out]) ∧
    (∀ (code : Int) (out err : Str), code ≠ 0 →
      (runThread (.completed code out err)).filter ThreadSignal.isOutcome
        = [.error (String.toList "Error: " ++ err)]) ∧
    (∀ m : Str,
      (runThread (.raised m)).filter ThreadSignal.isOutcome
        = [.error (String.toList "Failed to run search: " ++ m)]) := by
  refine ⟨?_, ?_, ?_, ?_⟩
  · intro r
    cases r with
    | completed code out err =>
      by_cases h : code = 0 <;>
        simp [runThread, h, List.filter, ThreadSignal.isOutcome]
    | raised m => simp [runThread, List.filter, ThreadSignal.isOutcome]
  · intro code out err h
    simp [runThread, h, List.filter, ThreadSignal.isOutcome]
  · intro code out err h
    simp [runThread, h, List.filter, ThreadSignal.isOutcome]
  · intro m
    simp [runThread, List.filter, ThreadSignal.isOutcome]

theorem searchThread_outcome_delivery_witness :
    ((runThread (.completed 0 (String.toList "ok") [])).filter
        ThreadSignal.isOutcome = [.finished (String.toList "ok")]) ∧
    ((runThread (.completed 2 [] (String.toList "boom"))).filter
        ThreadSignal.isOutcome
      = [.error (String.toList "Error: " ++ String.toList "boom")]) ∧
    ((runThread (.raised (String.toList "no such file"))).filter
        ThreadSignal.isOutcome
      = [.error (String.toList "Failed to run search: "
          ++ String.toList "no such file")]) :=
  ⟨searchThread_outcome_delivery.2.1 0 (String.toList "ok") [] rfl,
   searchThread_outcome_delivery.2.2.1 2 [] (String.toList "boom") (by decide),
   searchThread_outcome_delivery.2.2.2 (String.toList "no such file")⟩

/-- C5: while a worker thread is running, a further start-search request
is a silent no-op (the whole state is unchanged: no second subprocess,
no file writes, no clearing of results), and in every reachable state at
most one worker thread is running. -/
theorem start_search_single_flight :
    (∀ (st : AppState) (terms regex : Str), searchRunning st = true →
      startSearch st terms regex = st) ∧
    (∀ st : AppState, Reachable st → runningCount st ≤ 1) := by
  constructor
  · intro st terms regex h
    rw [startSearch, if_pos h]
  · intro st h
    exact countP_le_one_of_tail_false _ (tail_false_reachable st h)

theorem start_search_single_flight_witness :
    (startSearch
        { threads := [true], termsFile := none, regexFile := none,
          table := [], spawns := 1 }
        (String.toList "alpha") (String.toList "beta")
      = { threads := [true], termsFile := none, regexFile := none,
          table := [], spawns := 1 }) ∧
    runningCount (appStep initState (.start [] [])) ≤ 1 :=
  ⟨start_search_single_flight.1
      { threads := [true], termsFile := none, regexFile := none,
        table := [], spawns := 1 }
      (String.toList "alpha") (String.toList "beta") rfl,
   start_search_single_flight.2 (appStep initState (.start [] []))
      (Reachable.step initState (.start [] []) Reachable.init)⟩

/-- C6: when the terms box is blank after trimming, the terms file is
not written at all by prepare_search_files (its previous content, if
any, survives), and likewise for the regex box and the regex file; in
particular a start-search call in the idle state leaves a blank box's
file untouched. -/
theorem blank_box_file_not_written :
    (∀ (prev : Option Str) (input : Str), pyStrip input = [] →
      listFileAfter prev input = prev) ∧
    (∀ (st : AppState) (terms regex : Str), searchRunning st = false →
      pyStrip terms = [] → (startSearch st terms regex).termsFile = st.termsFile) ∧
    (∀ (st : AppState) (terms regex : Str), searchRunning st = false →
      pyStrip regex = [] → (startSearch st terms regex).regexFile = st.regexFile) := by
  have base : ∀ (prev : Option Str) (input : Str), pyStrip input = [] →
      listFileAfter prev input = prev := by
    intro prev input h
    rw [listFileAfter, if_pos h]
  refine ⟨base, ?_, ?_⟩
  · intro st terms regex hr h
    rw [startSearch, if_neg (by simp [hr])]
    exact base st.termsFile terms h
  · intro st terms regex hr h
    rw [startSearch, if_neg (by simp [hr])]
    exact base st.regexFile regex h

theorem blank_box_file_not_written_witness :
    listFileAfter (some (String.toList "old\n")) (String.toList "  \n \t ")
      = some (String.toList "old\n") :=
  blank_box_file_not_written.1 (some (String.toList "old\n"))
    (String.toList "  \n \t ") (by decide)

/-- C7: when search_results.csv does not exist, load_results is a silent
no-op: the table is left exactly as it was (in particular empty when it
was cleared before the search), no dialog is raised, and the summary is
not updated. -/
theorem load_results_missing_file_noop :
    (∀ table : List Row, loadOutcome none table = (table, false, none)) ∧
    loadOutcome none [] = ([], false, none) :=
  ⟨fun _ => rfl, rfl⟩

/-- Bound on the counting loop of update_summary: the two counters grow
by at most one per row. -/
theorem summaryAux_le (col : List (Option Str)) :
    ∀ fn ct, (summaryAux fn ct col).1 + (summaryAux fn ct col).2
      ≤ fn + ct + col.length := by
  induction col with
  | nil => intro fn ct; simp [summaryAux]
  | cons o rest ih =>
    intro fn ct
    cases o with
    | none =>
      have := ih fn ct
      simp only [summaryAux, List.length_cons]
      omega
    | some s =>
      simp only [summaryAux, List.length_cons]
      by_cases h1 : pyIn fileNameLit s
      · rw [if_pos h1]
        have := ih (fn + 1) ct
        omega
      · rw [if_neg h1]
        by_cases h2 : pyIn contentLit s
        · rw [if_pos h2]
          have := ih fn (ct + 1)
          omega
        · rw [if_neg h2]
          have := ih fn ct
          omega

/-- C8: update_summary counts by scanning the first column for the
literal substrings FileName and Content; a row containing neither
increments nothing, and on the three-row example with first-column
values FileName match, Content match, FileName match it yields two
filename matches, one content match, and total three. -/
theorem update_summary_counts :
    (summaryCounts (col0 summaryExampleTable) = (2, 1)
      ∧ summaryExampleTable.length = 3) ∧
    (∀ (fn ct : Nat) (s : Str) (rest : List (Option Str)),
      pyIn fileNameLit s = false → pyIn contentLit s = false →
      summaryAux fn ct (some s :: rest) = summaryAux fn ct rest) := by
  refine ⟨⟨by decide, rfl⟩, ?_⟩
  intro fn ct s rest h1 h2
  simp [summaryAux, h1, h2]

theorem update_summary_counts_witness :
    summaryAux 0 0 [some (String.toList "neither kind")] = summaryAux 0 0 [] :=
  update_summary_counts.2 0 0 (String.toList "neither kind") []
    (by decide) (by decide)

/-- C9: the two substring checks of update_summary are ordered and
mutually exclusive per row: a row whose first column contains FileName
increments only the filename counter even when it also contains Content;
hence the counter sum never exceeds the row count, while a row matching
neither makes the total strictly larger than the sum. -/
theorem update_summary_exclusive :
    (∀ (fn ct : Nat) (s : Str) (rest : List (Option Str)),
      pyIn fileNameLit s = true → pyIn contentLit s = true →
      summaryAux fn ct (some s :: rest) = summaryAux (fn + 1) ct rest) ∧
    (∀ col : List (Option Str),
      (summaryCounts col).1 + (summaryCounts col).2 ≤ col.length) ∧
    ((summaryCounts [some (String.toList "no match kind")]).1
        + (summaryCounts [some (String.toList "no match kind")]).2
      < [some (String.toList "no match kind")].length) := by
  refine ⟨?_, ?_, by decide⟩
  · intro fn ct s rest h1 _h2
    simp [summaryAux, h1]
  · intro col
    have := summaryAux_le col 0 0
    simpa [summaryCounts] using this

theorem update_summary_exclusive_witness :
    summaryAux 0 0 [some (String.toList "FileName and Content match")]
      = summaryAux 1 0 [] :=
  update_summary_exclusive.1 0 0
    (String.toList "FileName and Content match") [] (by decide) (by decide)

/-!
Lemmas for the CSV round trip (claims C1 and C2).  The plan: a field the
writer emits, followed by a delimiter or record end, is consumed by the
reader state machine back into exactly that field; records then compose;
universal-newline decoding turns the CR LF record ends into bare LF
without touching CR-free field bodies; and the fields the reader ever
produces from CR-free input (which is all the universal-newline layer
can deliver) are themselves CR-free, so a loaded table always satisfies
the hypotheses of the writer-side lemmas.
-/

theorem univNL_cons_ne (c : Char) (t : Str) (h : c ≠ '\r') :
    univNL (c :: t) = c :: univNL t := by
  simp [univNL, h]

theorem not_special_of_not_needsQuote (f : Str) (h : needsQuote f = false) :
    ∀ c ∈ f, c ≠ ',' ∧ c ≠ '"' ∧ c ≠ '\r' ∧ c ≠ '\n' := by
  intro c hc
  rw [needsQuote, List.any_eq_false] at h
  have h2 := h c hc
  simp only [Bool.or_eq_true, decide_eq_true_eq, not_or] at h2
  exact ⟨h2.1.1.1, h2.1.1.2, h2.1.2, h2.2⟩

theorem noCR_escQ (f : Str) (h : noCR f) : noCR (escQ f) := by
  induction f with
  | nil => simp [escQ, noCR]
  | cons c t ih =>
    have hc : c ≠ '\r' := h c (by simp)
    have ht : noCR t := fun d hd => h d (by simp [hd])
    rw [escQ]
    by_cases hq : c = '"'
    · rw [if_pos hq]
      intro d hd
      rcases hd with _ | ⟨_, hd⟩
      · simp [hq]
      · rcases hd with _ | ⟨_, hd⟩
        · simp [hq]
        · exact ih ht d hd
    · rw [if_neg hq]
      intro d hd
      rcases hd with _ | ⟨_, hd⟩
      · exact hc
      · exact ih ht d hd

theorem noCR_writeField (f : Str) (h : noCR f) : noCR (writeField f) := by
  rw [writeField]
  by_cases hq : needsQuote f
  · rw [if_pos hq]
    intro d hd
    rcases hd with _ | ⟨_, hd⟩
    · decide
    · rcases List.mem_append.mp hd with h2 | h2
      · exact noCR_escQ f h d h2
      · have : d = '"' := by simpa using h2
        subst this
        decide
  · rw [if_neg hq]
    exact h

theorem noCR_writeRecBody (r : List Str) (h : ∀ f ∈ r, noCR f) :
    noCR (writeRecBody r) := by
  induction r with
  | nil => simp [writeRecBody, noCR]
  | cons f rest ih =>
    rcases rest with _ | ⟨g, t⟩
    · rw [writeRecBody]
      exact noCR_writeField f (h f (by simp))
    · rw [writeRecBody]
      intro d hd
      rcases List.mem_append.mp hd with h2 | h2
      · exact noCR_writeField f (h f (by simp)) d h2
      · rcases h2 with _ | ⟨_, h2⟩
        · decide
        · exact ih (fun x hx => h x (by simp [List.mem_cons] at hx ⊢; tauto)) d h2

/-- Universal-newline decoding of a CR-free body followed by a CR LF
record end and more input: the body passes through and the record end
becomes a bare LF. -/
theorem univNL_body_crlf (s : Str) (h : noCR s) (t : Str) :
    univNL (s ++ '\r' :: '\n' :: t) = s ++ '\n' :: univNL t := by
  induction s with
  | nil => rfl
  | cons c s2 ih =>
    have hc : c ≠ '\r' := h c (by simp)
    rw [List.cons_append, univNL_cons_ne c _ hc,
      ih (fun d hd => h d (by simp [hd]))]
    rfl

/-- An unquoted field body is consumed verbatim in the in-field state. -/
theorem parseAux_inF_plain (f : Str)
    (hf : ∀ c ∈ f, c ≠ ',' ∧ c ≠ '\n') :
    ∀ (acc : Str) (fs : List Str) (rest : Str),
      parseAux .inF acc fs (f ++ rest) = parseAux .inF (acc ++ f) fs rest := by
  induction f with
  | nil => intro acc fs rest; simp
  | cons c f2 ih =>
    intro acc fs rest
    have hc := hf c (by simp)
    rw [List.cons_append]
    show parseAux .inF acc fs (c :: (f2 ++ rest)) = _
    simp only [parseAux]
    rw [if_neg hc.1, if_neg hc.2,
      ih (fun d hd => hf d (by simp [hd])) (acc ++ [c]) fs rest]
    simp

/-- An escaped quoted field body followed by the closing quote is
consumed verbatim in the in-quotes state, ending just after the quote. -/
theorem parseAux_inQ_esc (f : Str) :
    ∀ (acc : Str) (fs : List Str) (rest : Str),
      parseAux .inQ acc fs (escQ f ++ '"' :: rest)
        = parseAux .quoteQ (acc ++ f) fs rest := by
  induction f with
  | nil =>
    intro acc fs rest
    show parseAux .inQ acc fs ('"' :: rest) = _
    simp [parseAux]
  | cons c f2 ih =>
    intro acc fs rest
    by_cases hq : c = '"'
    · subst hq
      rw [escQ, if_pos rfl]
      show parseAux .inQ acc fs ('"' :: '"' :: (escQ f2 ++ '"' :: rest)) = _
      simp only [parseAux, if_pos rfl]
      rw [ih (acc ++ ['"']) fs rest]
      simp
    · rw [escQ, if_neg hq]
      show parseAux .inQ acc fs (c :: (escQ f2 ++ '"' :: rest)) = _
      simp only [parseAux]
      rw [if_neg hq, ih (acc ++ [c]) fs rest]
      simp

/-- A written field followed by a comma is consumed into exactly that
field, leaving the machine at the start of the next field. -/
theorem parseAux_field_comma (f : Str) (b : Bool) (fs : List Str) (rest : Str) :
    parseAux (.startF b) [] fs (writeField f ++ ',' :: rest)
      = parseAux (.startF false) [] (fs ++ [f]) rest := by
  rw [writeField]
  by_cases hq : needsQuote f
  · rw [if_pos hq]
    have hassoc : ('"' :: (escQ f ++ ['"'])) ++ ',' :: rest
        = '"' :: (escQ f ++ '"' :: ',' :: rest) := by simp
    rw [hassoc]
    simp only [parseAux, if_pos rfl]
    rw [parseAux_inQ_esc f [] fs (',' :: rest)]
    simp [parseAux]
  · rw [if_neg hq]
    have hs := not_special_of_not_needsQuote f (by simpa using hq)
    rcases f with _ | ⟨c, f2⟩
    · show parseAux (.startF b) [] fs (',' :: rest) = _
      simp [parseAux]
    · have hc := hs c (by simp)
      show parseAux (.startF b) [] fs (c :: (f2 ++ ',' :: rest)) = _
      simp only [parseAux]
      rw [if_neg hc.2.1, if_neg hc.1, if_neg hc.2.2.2,
        parseAux_inF_plain f2
          (fun d hd => ⟨(hs d (by simp [hd])).1, (hs d (by simp [hd])).2.2.2⟩)
          ([] ++ [c]) fs (',' :: rest)]
      simp [parseAux]

/-- A written field followed by a record end is consumed into exactly
that field, closing the record; for the first field of a record the
field must be nonempty or the position must not be record-initial (the
only case this program never produces: a one-field record). -/
theorem parseAux_field_nl (f : Str) (b : Bool) (fs : List Str) (rest : Str)
    (hbf : f ≠ [] ∨ b = false) :
    parseAux (.startF b) [] fs (writeField f ++ '\n' :: rest)
      = (fs ++ [f]) :: parseAux (.startF true) [] [] rest := by
  rw [writeField]
  by_cases hq : needsQuote f
  · rw [if_pos hq]
    have hassoc : ('"' :: (escQ f ++ ['"'])) ++ '\n' :: rest
        = '"' :: (escQ f ++ '"' :: '\n' :: rest) := by simp
    rw [hassoc]
    simp only [parseAux, if_pos rfl]
    rw [parseAux_inQ_esc f [] fs ('\n' :: rest)]
    simp [parseAux]
  · rw [if_neg hq]
    have hs := not_special_of_not_needsQuote f (by simpa using hq)
    rcases f with _ | ⟨c, f2⟩
    · rcases hbf with hf | hb
      · cases hf rfl
      · subst hb
        show parseAux (.startF false) [] fs ('\n' :: rest) = _
        simp [parseAux]
    · have hc := hs c (by simp)
      show parseAux (.startF b) [] fs (c :: (f2 ++ '\n' :: rest)) = _
      simp only [parseAux]
      rw [if_neg hc.2.1, if_neg hc.1, if_neg hc.2.2.2,
        parseAux_inF_plain f2
          (fun d hd => ⟨(hs d (by simp [hd])).1, (hs d (by simp [hd])).2.2.2⟩)
          ([] ++ [c]) fs ('\n' :: rest)]
      simp [parseAux]

/-- A written nonempty record, consumed from the start-of-field position
after at least one field of the record has been read, yields exactly its
fields appended to those already read. -/
theorem parseAux_record_from_false (f : Str) (r : List Str) :
    ∀ (fs : List Str) (rest : Str),
      parseAux (.startF false) [] fs (writeRecBody (f :: r) ++ '\n' :: rest)
        = (fs ++ (f :: r)) :: parseAux (.startF true) [] [] rest := by
  induction r generalizing f with
  | nil =>
    intro fs rest
    rw [writeRecBody]
    exact parseAux_field_nl f false fs rest (Or.inr rfl)
  | cons g t ih =>
    intro fs rest
    rw [writeRecBody]
    have hassoc : (writeField f ++ ',' :: writeRecBody (g :: t)) ++ '\n' :: rest
        = writeField f ++ ',' :: (writeRecBody (g :: t) ++ '\n' :: rest) := by
      simp
    rw [hassoc, parseAux_field_comma f false fs _, ih g (fs ++ [f]) rest]
    simp

/-- A written record of at least two fields (or with a nonempty first
field), consumed from the start-of-record position, yields exactly that
record. -/
theorem parseAux_record_from_true (f : Str) (r : List Str)
    (hbf : f ≠ [] ∨ r ≠ []) (rest : Str) :
    parseAux (.startF true) [] [] (writeRecBody (f :: r) ++ '\n' :: rest)
      = (f :: r) :: parseAux (.startF true) [] [] rest := by
  rcases r with _ | ⟨g, t⟩
  · rcases hbf with hf | hr
    · rw [writeRecBody]
      simpa using parseAux_field_nl f true [] rest (Or.inl hf)
    · cases hr rfl
  · rw [writeRecBody]
    have hassoc : (writeField f ++ ',' :: writeRecBody (g :: t)) ++ '\n' :: rest
        = writeField f ++ ',' :: (writeRecBody (g :: t) ++ '\n' :: rest) := by
      simp
    rw [hassoc, parseAux_field_comma f true [] _]
    simp only [List.nil_append]
    rw [parseAux_record_from_false g t [f] rest]
    simp

/-- csv.reader on LF-terminated writer output recovers the records,
provided every record has at least two fields (as every record this
program writes has six). -/
theorem csvParse_writeLF (recs : List (List Str))
    (h : ∀ r ∈ recs, 2 ≤ r.length) :
    parseAux (.startF true) [] [] ((recs.map writeRecLF).flatten) = recs := by
  induction recs with
  | nil => rfl
  | cons r rs ih =>
    have h2 := h r (by simp)
    rcases r with _ | ⟨f, r2⟩
    · simp at h2
    · rcases r2 with _ | ⟨g, t⟩
      · simp at h2
      · simp only [List.map_cons, List.flatten_cons]
        rw [writeRecLF]
        have hassoc : (writeRecBody (f :: g :: t) ++ ['\n'])
              ++ (rs.map writeRecLF).flatten
            = writeRecBody (f :: g :: t)
              ++ '\n' :: (rs.map writeRecLF).flatten := by
          simp
        rw [hassoc,
          parseAux_record_from_true f (g :: t) (Or.inr (by simp)) _,
          ih (fun x hx => h x (by simp [hx]))]

theorem noCR_nil : noCR [] := by
  intro c hc
  cases hc

theorem noCR_snoc (f : Str) (c : Char) (hf : noCR f) (hc : c ≠ '\r') :
    noCR (f ++ [c]) := by
  intro d hd
  rcases List.mem_append.mp hd with h | h
  · exact hf d h
  · have : d = c := by simpa using h
    subst this
    exact hc

theorem noCR_mem_append_single (fs : List Str) (f g : Str)
    (hfs : ∀ x ∈ fs, noCR x) (hf : noCR f) (hg : g ∈ fs ++ [f]) : noCR g := by
  rcases List.mem_append.mp hg with h | h
  · exact hfs g h
  · have : g = f := by simpa using h
    subst this
    exact hf

theorem noCR_tail (a : Char) (t : Str) (hs : ∀ c ∈ a :: t, c ≠ '\r') :
    ∀ c ∈ t, c ≠ '\r' :=
  fun c hc => hs c (by simp [hc])

/-- Every field the reader produces from CR-free input is CR-free
(assuming the accumulators are). -/
theorem parseAux_fields_noCR (st : PState) (f : Str) (fs : List Str) (s : Str) :
    (∀ c ∈ s, c ≠ '\r') → noCR f → (∀ g ∈ fs, noCR g) →
    ∀ r ∈ parseAux st f fs s, ∀ g ∈ r, noCR g := by
  induction st, f, fs, s using parseAux.induct
  case case1 f fs =>
    intro _ _ _ r hr
    simp [parseAux] at hr
  case case2 first f fs h =>
    intro _ hf hfs r hr g hg
    rw [parseAux, if_neg h] at hr
    have : r = fs ++ [f] := by simpa using hr
    subst this
    exact noCR_mem_append_single fs f g hfs hf hg
  case case3 f fs =>
    intro _ hf hfs r hr g hg
    rw [parseAux] at hr
    have : r = fs ++ [f] := by simpa using hr
    subst this
    exact noCR_mem_append_single fs f g hfs hf hg
  case case4 f fs =>
    intro _ hf hfs r hr g hg
    rw [parseAux] at hr
    have : r = fs ++ [f] := by simpa using hr
    subst this
    exact noCR_mem_append_single fs f g hfs hf hg
  case case5 f fs =>
    intro _ hf hfs r hr g hg
    rw [parseAux] at hr
    have : r = fs ++ [f] := by simpa using hr
    subst this
    exact noCR_mem_append_single fs f g hfs hf hg
  case case6 first f fs t ih =>
    intro hs hf hfs
    show ∀ r ∈ parseAux (.startF first) f fs ('"' :: t), ∀ g ∈ r, noCR g
    rw [parseAux, if_pos rfl]
    exact ih (noCR_tail _ t hs) hf hfs
  case case7 first f fs t h ih =>
    intro hs hf hfs
    show ∀ r ∈ parseAux (.startF first) f fs (',' :: t), ∀ g ∈ r, noCR g
    rw [parseAux, if_neg h, if_pos rfl]
    exact ih (noCR_tail _ t hs) noCR_nil
      (fun g hg => noCR_mem_append_single fs f g hfs hf hg)
  case case8 f fs t h1 h2 ih =>
    intro hs hf hfs r hr g hg
    rw [parseAux, if_neg h1, if_neg h2, if_pos rfl, if_pos rfl] at hr
    rcases List.mem_cons.mp hr with h | h
    · subst h
      cases hg
    · exact ih (noCR_tail _ t hs) noCR_nil (by simp) r h g hg
  case case9 first f fs t h0 h1 h2 ih =>
    intro hs hf hfs r hr g hg
    rw [parseAux, if_neg h1, if_neg h2, if_pos rfl, if_neg h0] at hr
    rcases List.mem_cons.mp hr with h | h
    · subst h
      exact noCR_mem_append_single fs f g hfs hf hg
    · exact ih (noCR_tail _ t hs) noCR_nil (by simp) r h g hg
  case case10 first f fs c t h1 h2 h3 ih =>
    intro hs hf hfs
    show ∀ r ∈ parseAux (.startF first) f fs (c :: t), ∀ g ∈ r, noCR g
    rw [parseAux, if_neg h1, if_neg h2, if_neg h3]
    exact ih (noCR_tail _ t hs) (noCR_snoc f c hf (hs c (by simp))) hfs
  case case11 f fs t ih =>
    intro hs hf hfs
    show ∀ r ∈ parseAux .inF f fs (',' :: t), ∀ g ∈ r, noCR g
    rw [parseAux, if_pos rfl]
    exact ih (noCR_tail _ t hs) noCR_nil
      (fun g hg => noCR_mem_append_single fs f g hfs hf hg)
  case case12 f fs t h ih =>
    intro hs hf hfs r hr g hg
    rw [parseAux, if_neg h, if_pos rfl] at hr
    rcases List.mem_cons.mp hr with h2 | h2
    · subst h2
      exact noCR_mem_append_single fs f g hfs hf hg
    · exact ih (noCR_tail _ t hs) noCR_nil (by simp) r h2 g hg
  case case13 f fs c t h1 h2 ih =>
    intro hs hf hfs
    show ∀ r ∈ parseAux .inF f fs (c :: t), ∀ g ∈ r, noCR g
    rw [parseAux, if_neg h1, if_neg h2]
    exact ih (noCR_tail _ t hs) (noCR_snoc f c hf (hs c (by simp))) hfs
  case case14 f fs t ih =>
    intro hs hf hfs
    show ∀ r ∈ parseAux .inQ f fs ('"' :: t), ∀ g ∈ r, noCR g
    rw [parseAux, if_pos rfl]
    exact ih (noCR_tail _ t hs) hf hfs
  case case15 f fs c t h ih =>
    intro hs hf hfs
    show ∀ r ∈ parseAux .inQ f fs (c :: t), ∀ g ∈ r, noCR g
    rw [parseAux, if_neg h]
    exact ih (noCR_tail _ t hs) (noCR_snoc f c hf (hs c (by simp))) hfs
  case case16 f fs t ih =>
    intro hs hf hfs
    show ∀ r ∈ parseAux .quoteQ f fs ('"' :: t), ∀ g ∈ r, noCR g
    rw [parseAux, if_pos rfl]
    exact ih (noCR_tail _ t hs) (noCR_snoc f '"' hf (by decide)) hfs
  case case17 f fs t h ih =>
    intro hs hf hfs
    show ∀ r ∈ parseAux .quoteQ f fs (',' :: t), ∀ g ∈ r, noCR g
    rw [parseAux, if_neg h, if_pos rfl]
    exact ih (noCR_tail _ t hs) noCR_nil
      (fun g hg => noCR_mem_append_single fs f g hfs hf hg)
  case case18 f fs t h1 h2 ih =>
    intro hs hf hfs r hr g hg
    rw [parseAux, if_neg h1, if_neg h2, if_pos rfl] at hr
    rcases List.mem_cons.mp hr with h3 | h3
    · subst h3
      exact noCR_mem_append_single fs f g hfs hf hg
    · exact ih (noCR_tail _ t hs) noCR_nil (by simp) r h3 g hg
  case case19 f fs c t h1 h2 h3 ih =>
    intro hs hf hfs
    show ∀ r ∈ parseAux .quoteQ f fs (c :: t), ∀ g ∈ r, noCR g
    rw [parseAux, if_neg h1, if_neg h2, if_neg h3]
    exact ih (noCR_tail _ t hs) (noCR_snoc f c hf (hs c (by simp))) hfs

/-- Universal-newline decoding never leaves a carriage return. -/
theorem noCR_univNL (s : Str) : ∀ c ∈ univNL s, c ≠ '\r' := by
  induction s using univNL.induct
  case case1 =>
    intro c hc
    cases hc
  case case2 =>
    intro c hc
    have : c = '\n' := by simpa [univNL] using hc
    subst this
    decide
  case case3 t ih =>
    intro c hc
    rw [show univNL ('\r' :: '\n' :: t) = '\n' :: univNL t from rfl] at hc
    rcases List.mem_cons.mp hc with h | h
    · subst h
      decide
    · exact ih c h
  case case4 c2 t h ih =>
    intro c hc
    have he : univNL ('\r' :: c2 :: t) = '\n' :: univNL (c2 :: t) := by
      simp [univNL, h]
    rw [he] at hc
    rcases List.mem_cons.mp hc with h2 | h2
    · subst h2
      decide
    · exact ih c h2
  case case5 c2 t h1 h2 h3 ih =>
    intro c hc
    have hne : c2 ≠ '\r' := by
      intro hcr
      cases t with
      | nil => exact h1 hcr rfl
      | cons x xs => exact h3 x xs hcr rfl
    rw [univNL_cons_ne c2 t hne] at hc
    rcases List.mem_cons.mp hc with h4 | h4
    · subst h4
      exact hne
    · exact ih c h4

/-- Universal-newline decoding of a whole written stream: every CR LF
record end becomes a bare LF, bodies of CR-free fields pass through. -/
theorem univNL_writeCRLF (recs : List (List Str))
    (h : ∀ r ∈ recs, ∀ f ∈ r, noCR f) :
    univNL ((recs.map writeRecCRLF).flatten) = (recs.map writeRecLF).flatten := by
  induction recs with
  | nil => rfl
  | cons r rs ih =>
    simp only [List.map_cons, List.flatten_cons]
    rw [writeRecCRLF, writeRecLF]
    have hassoc : (writeRecBody r ++ ['\r', '\n']) ++ (rs.map writeRecCRLF).flatten
        = writeRecBody r ++ '\r' :: '\n' :: (rs.map writeRecCRLF).flatten := by
      simp
    rw [hassoc,
      univNL_body_crlf (writeRecBody r) (noCR_writeRecBody r (h r (by simp))) _,
      ih (fun x hx => h x (by simp [hx]))]
    simp

/-- The six cell texts of a row loaded from a record are the first six
fields of the record, blank where the record is short. -/
theorem rowFields_mkRow (rec : List Str) :
    rowFields (mkRow rec)
      = (List.range 6).map (fun j => (rec.get? j).getD []) := by
  rw [rowFields, mkRow]
  apply List.map_congr_left
  intro j hj
  have hj6 : j < 6 := List.mem_range.mp hj
  rw [getItem, cellText, List.get?_map, List.get?_range hj6]
  rfl

theorem rowFields_mkRow_of_len6 (rec : List Str) (h : rec.length = 6) :
    rowFields (mkRow rec) = rec := by
  obtain ⟨a, b, c, d, e, f, hrec⟩ :
      ∃ a b c d e f, rec = [a, b, c, d, e, f] := by
    rcases rec with _ | ⟨a, r1⟩
    · simp at h
    rcases r1 with _ | ⟨b, r2⟩
    · simp at h
    rcases r2 with _ | ⟨c, r3⟩
    · simp at h
    rcases r3 with _ | ⟨d, r4⟩
    · simp at h
    rcases r4 with _ | ⟨e, r5⟩
    · simp at h
    rcases r5 with _ | ⟨f, r6⟩
    · simp at h
    rcases r6 with _ | ⟨g, r7⟩
    · exact ⟨a, b, c, d, e, f, rfl⟩
    · simp at h
  subst hrec
  rfl

theorem rowFields_length (r : Row) : (rowFields r).length = 6 := by
  simp [rowFields]

theorem saveCsv_eq_flatten (table : List Row) :
    saveCsv table
      = ((csvHeaderLabels :: table.map rowFields).map writeRecCRLF).flatten := by
  rw [saveCsv]
  simp only [List.map_cons, List.flatten_cons, List.map_map]
  rfl

/-- Parsing back a saved table (through the universal-newline layer)
yields the header record followed by one record of cell texts per row,
provided the cell texts are CR-free. -/
theorem csvParse_univNL_saveCsv (table : List Row)
    (hC : ∀ r ∈ table, ∀ g ∈ rowFields r, noCR g) :
    csvParse (univNL (saveCsv table))
      = csvHeaderLabels :: table.map rowFields := by
  rw [saveCsv_eq_flatten, csvParse, univNL_writeCRLF]
  · apply csvParse_writeLF
    intro r hr
    rcases List.mem_cons.mp hr with h | h
    · subst h
      decide
    · obtain ⟨row, _hrow, hmap⟩ := List.mem_map.mp h
      rw [hmap.symm, rowFields_length]
      omega
  · intro r hr f hf
    rcases List.mem_cons.mp hr with h | h
    · subst h
      have hall : ∀ g ∈ csvHeaderLabels, ∀ c ∈ g, c ≠ '\r' := by decide
      exact hall f hf
    · obtain ⟨row, hrow, hmap⟩ := List.mem_map.mp h
      subst hmap
      exact hC row hrow f hf

/-- Every cell text of a loaded table is CR-free: the universal-newline
layer removed every carriage return before the reader saw the input. -/
theorem loadTable_fields_noCR (content : Str) :
    ∀ r ∈ loadTable content, ∀ g ∈ rowFields r, noCR g := by
  intro r hr g hg
  rw [loadTable] at hr
  obtain ⟨rec, hrec, hmk⟩ := List.mem_map.mp hr
  subst hmk
  rw [rowFields_mkRow] at hg
  obtain ⟨j, _hj, hgj⟩ := List.mem_map.mp hg
  rcases hq : rec.get? j with _ | fld
  · rw [hq] at hgj
    rw [hgj.symm]
    exact noCR_nil
  · rw [hq] at hgj
    simp only [Option.getD_some] at hgj
    rw [hgj.symm]
    have hrec2 : rec ∈ csvParse (univNL content) := List.mem_of_mem_drop hrec
    have hfld : fld ∈ rec := List.get?_mem hq
    exact parseAux_fields_noCR (.startF true) [] [] (univNL content)
      (noCR_univNL content) noCR_nil (by simp) rec hrec2 fld hfld

/-- C1: for every loaded ResultSet (the table produced by load_results
from any file content), saving it with save_as_csv and re-loading the
produced file yields a table with the same six cell values in every row
in order; the header labels are written but skipped again on load and do
not enter the comparison.  This covers cells holding embedded commas,
quotes and newlines, which the writer quotes and the reader unquotes. -/
theorem csv_roundtrip_loaded (content : Str) :
    (loadTable (saveCsv (loadTable content))).map rowFields
      = (loadTable content).map rowFields := by
  have hstep : loadTable (saveCsv (loadTable content))
      = ((loadTable content).map rowFields).map mkRow := by
    rw [loadTable, csvParse_univNL_saveCsv (loadTable content)
      (loadTable_fields_noCR content)]
    simp
  rw [hstep, List.map_map]
  have hid : ∀ l ∈ (loadTable content).map rowFields,
      (rowFields ∘ mkRow) l = id l := by
    intro l hl
    obtain ⟨r, _hr, hmap⟩ := List.mem_map.mp hl
    show rowFields (mkRow l) = l
    rw [hmap.symm]
    exact rowFields_mkRow_of_len6 (rowFields r) (rowFields_length r)
  rw [List.map_congr_left hid, List.map_id]

/-- C2: whenever the parsed file has a first (header) record followed by
N data records, load_results produces exactly N rows in file order; each
row holds, per column index below six, the record's field at that index
verbatim, blank when the record is shorter, and nothing of any field
beyond the sixth; the header record never appears among the rows. -/
theorem load_results_rows (content : Str) (hdr : List Str)
    (data : List (List Str))
    (H : csvParse (univNL content) = hdr :: data) :
    (loadTable content).length = data.length ∧
    ∀ i, i < data.length →
      ((loadTable content).get? i).map rowFields
        = (data.get? i).map
            (fun rec => (List.range 6).map (fun j => (rec.get? j).getD [])) := by
  constructor
  · rw [loadTable, H]
    simp
  · intro i _hi
    rw [loadTable, H]
    simp only [List.drop_succ_cons, List.drop_zero]
    rw [List.get?_map]
    rcases hq : data.get? i with _ | rec
    · rfl
    · simp [rowFields_mkRow]

theorem load_results_rows_witness :
    (loadTable (String.toList "h1,h2\nA,B,C,D,E,F,G\nX\n")).length
        = [[String.toList "A", String.toList "B", String.toList "C",
            String.toList "D", String.toList "E", String.toList "F",
            String.toList "G"], [String.toList "X"]].length ∧
    ((loadTable (String.toList "h1,h2\nA,B,C,D,E,F,G\nX\n")).get? 0).map rowFields
      = (([[String.toList "A", String.toList "B", String.toList "C",
            String.toList "D", String.toList "E", String.toList "F",
            String.toList "G"], [String.toList "X"]] :
              List (List Str)).get? 0).map
          (fun rec => (List.range 6).map (fun j => (rec.get? j).getD [])) :=
  ⟨(load_results_rows (String.toList "h1,h2\nA,B,C,D,E,F,G\nX\n")
      [String.toList "h1", String.toList "h2"]
      [[String.toList "A", String.toList "B", String.toList "C",
        String.toList "D", String.toList "E", String.toList "F",
        String.toList "G"], [String.toList "X"]] (by decide)).1,
   (load_results_rows (String.toList "h1,h2\nA,B,C,D,E,F,G\nX\n")
      [String.toList "h1", String.toList "h2"]
      [[String.toList "A", String.toList "B", String.toList "C",
        String.toList "D", String.toList "E", String.toList "F",
        String.toList "G"], [String.toList "X"]] (by decide)).2 0 (by decide)⟩

/-!
Lemmas for claim C3: stripping the whole text before splitting does not
change the stripped non-blank lines.
-/

theorem pySplitNL_ne_nil (s : Str) : pySplitNL s ≠ [] := by
  cases s with
  | nil => simp [pySplitNL]
  | cons c t =>
    rw [pySplitNL]
    by_cases h : c = '\n'
    · simp [h]
    · rw [if_neg h]
      rcases hs : pySplitNL t with _ | ⟨l, ls⟩
      · simp
      · simp

theorem pyStrip_cons_space (c : Char) (l : Str) (h : pyIsSpace c = true) :
    pyStrip (c :: l) = pyStrip l := by
  rw [pyStrip, pyStrip, pyStripLeft, pyStripLeft, List.dropWhile_cons, if_pos h]

theorem pyStripRight_snoc_space (c : Char) (l : Str) (h : pyIsSpace c = true) :
    pyStripRight (l ++ [c]) = pyStripRight l := by
  rw [pyStripRight, pyStripRight]
  have : (l ++ [c]).reverse = c :: l.reverse := by simp
  rw [this, List.dropWhile_cons, if_pos h]

theorem dropWhile_snoc_of_ne_nil (p : Char → Bool) (l : Str) (c : Char)
    (h : l.dropWhile p ≠ []) :
    (l ++ [c]).dropWhile p = l.dropWhile p ++ [c] := by
  induction l with
  | nil => simp at h
  | cons a as ih =>
    rw [List.cons_append, List.dropWhile_cons]
    by_cases ha : p a
    · rw [if_pos ha]
      rw [List.dropWhile_cons, if_pos ha] at h ⊢
      exact ih h
    · rw [if_neg ha]
      rw [List.dropWhile_cons, if_neg ha]
      simp

theorem dropWhile_snoc_of_nil (p : Char → Bool) (l : Str) (c : Char)
    (h : l.dropWhile p = []) :
    (l ++ [c]).dropWhile p = [c].dropWhile p := by
  induction l with
  | nil => simp
  | cons a as ih =>
    rw [List.dropWhile_cons] at h
    by_cases ha : p a
    · rw [if_pos ha] at h
      rw [List.cons_append, List.dropWhile_cons, if_pos ha]
      exact ih h
    · rw [if_neg ha] at h
      simp at h

theorem pyStrip_snoc_space (c : Char) (l : Str) (h : pyIsSpace c = true) :
    pyStrip (l ++ [c]) = pyStrip l := by
  rw [pyStrip, pyStrip, pyStripLeft, pyStripLeft]
  by_cases hd : l.dropWhile pyIsSpace = []
  · rw [hd, dropWhile_snoc_of_nil pyIsSpace l c hd]
    rw [List.dropWhile_cons, if_pos h]
    rfl
  · rw [dropWhile_snoc_of_ne_nil pyIsSpace l c hd,
      pyStripRight_snoc_space c _ h]

theorem keptLines_cons_space (c : Char) (t : Str) (h : pyIsSpace c = true) :
    keptLines (c :: t) = keptLines t := by
  by_cases hc : c = '\n'
  · rw [keptLines, keptLines, pySplitNL, if_pos hc]
    simp [pyStrip, pyStripLeft, pyStripRight]
  · rw [keptLines, keptLines, pySplitNL, if_neg hc]
    rcases hs : pySplitNL t with _ | ⟨l, ls⟩
    · exact absurd hs (pySplitNL_ne_nil t)
    · simp only [List.map_cons, List.filter_cons]
      rw [pyStrip_cons_space c l h]

theorem keptLines_stripLeft (s : Str) : keptLines (pyStripLeft s) = keptLines s := by
  induction s with
  | nil => rfl
  | cons c t ih =>
    rw [pyStripLeft, List.dropWhile_cons]
    by_cases h : pyIsSpace c
    · rw [if_pos h, keptLines_cons_space c t h]
      exact ih
    · rw [if_neg h]

theorem pySplitNL_snoc_nl (s : Str) :
    pySplitNL (s ++ ['\n']) = pySplitNL s ++ [[]] := by
  induction s with
  | nil => rfl
  | cons c t ih =>
    rw [List.cons_append, pySplitNL, pySplitNL]
    by_cases h : c = '\n'
    · rw [if_pos h, if_pos h, ih]
      rfl
    · rw [if_neg h, if_neg h, ih]
      rcases hs : pySplitNL t with _ | ⟨l, ls⟩
      · exact absurd hs (pySplitNL_ne_nil t)
      · rfl

theorem pySplitNL_snoc_other (c : Char) (s : Str) (h : c ≠ '\n') :
    pySplitNL (s ++ [c]) = appendLast c (pySplitNL s) := by
  induction s with
  | nil => simp [pySplitNL, if_neg h, appendLast]
  | cons a t ih =>
    rw [List.cons_append, pySplitNL, pySplitNL]
    by_cases ha : a = '\n'
    · rw [if_pos ha, if_pos ha, ih]
      rcases hs : pySplitNL t with _ | ⟨l, ls⟩
      · exact absurd hs (pySplitNL_ne_nil t)
      · rfl
    · rw [if_neg ha, if_neg ha, ih]
      rcases hs : pySplitNL t with _ | ⟨l, ls⟩
      · exact absurd hs (pySplitNL_ne_nil t)
      · rcases ls with _ | ⟨m, ms⟩ <;> rfl

theorem keptLines_of_appendLast (c : Char) (L : List Str) (h : pyIsSpace c = true) :
    ((appendLast c L).map pyStrip).filter (fun l => l ≠ [])
      = (L.map pyStrip).filter (fun l => l ≠ []) := by
  induction L with
  | nil =>
    simp only [appendLast, List.map_cons, List.map_nil, List.filter]
    have : pyStrip [c] = [] := by
      have := pyStrip_cons_space c [] h
      simpa [pyStrip, pyStripLeft, pyStripRight] using this
    simp [this]
  | cons l ls ih =>
    rcases ls with _ | ⟨m, ms⟩
    · simp only [appendLast, List.map_cons, List.map_nil, List.filter_cons]
      rw [pyStrip_snoc_space c l h]
    · rw [appendLast]
      simp only [List.map_cons, List.filter_cons] at ih ⊢
      rw [ih]

theorem keptLines_snoc_space (c : Char) (s : Str) (h : pyIsSpace c = true) :
    keptLines (s ++ [c]) = keptLines s := by
  by_cases hc : c = '\n'
  · subst hc
    rw [keptLines, keptLines, pySplitNL_snoc_nl]
    simp [pyStrip, pyStripLeft, pyStripRight]
  · rw [keptLines, keptLines, pySplitNL_snoc_other c s hc]
    exact keptLines_of_appendLast c (pySplitNL s) h

theorem keptLines_stripRight (s : Str) : keptLines (pyStripRight s) = keptLines s := by
  induction s using List.reverseRecOn with
  | nil => rfl
  | append_singleton l c ih =>
    by_cases h : pyIsSpace c
    · rw [pyStripRight_snoc_space c l h, ih, keptLines_snoc_space c l h]
    · have : pyStripRight (l ++ [c]) = l ++ [c] := by
        rw [pyStripRight]
        have h2 : (l ++ [c]).reverse = c :: l.reverse := by simp
        rw [h2, List.dropWhile_cons, if_neg h]
        simp
      rw [this]

theorem keptLines_strip (s : Str) : keptLines (pyStrip s) = keptLines s := by
  rw [pyStrip, keptLines_stripRight, keptLines_stripLeft]

/-- C3: when the terms input is non-empty after trimming, the terms file
written by prepare_search_files holds exactly the non-blank lines of the
input, each stripped, in original order, one per line, regardless of the
previous file content (overwritten); the same function writes the regex
file from the regex input. -/
theorem prepare_search_files_exact :
    (∀ (prev : Option Str) (input : Str), pyStrip input ≠ [] →
      listFileAfter prev input = some (joinLines (keptLines input))) ∧
    (∀ (st : AppState) (terms regex : Str), searchRunning st = false →
      pyStrip terms ≠ [] →
      (startSearch st terms regex).termsFile
        = some (joinLines (keptLines terms))) ∧
    (∀ (st : AppState) (terms regex : Str), searchRunning st = false →
      pyStrip regex ≠ [] →
      (startSearch st terms regex).regexFile
        = some (joinLines (keptLines regex))) := by
  have base : ∀ (prev : Option Str) (input : Str), pyStrip input ≠ [] →
      listFileAfter prev input = some (joinLines (keptLines input)) := by
    intro prev input h
    rw [listFileAfter, if_neg h, keptLines_strip]
  refine ⟨base, ?_, ?_⟩
  · intro st terms regex hr h
    rw [startSearch, if_neg (by simp [hr])]
    exact base st.termsFile terms h
  · intro st terms regex hr h
    rw [startSearch, if_neg (by simp [hr])]
    exact base st.regexFile regex h

theorem prepare_search_files_exact_witness :
    listFileAfter (some (String.toList "stale"))
        (String.toList "  alpha \n\n beta\n")
      = some (joinLines (keptLines (String.toList "  alpha \n\n beta\n"))) :=
  prepare_search_files_exact.1 (some (String.toList "stale"))
    (String.toList "  alpha \n\n beta\n") (by decide)

/-- C10: a zero-byte search_results.csv loads without any dialog: the
header read yields nothing, the table is set to zero rows, and the
summary is updated with total zero; a file holding only a header row
behaves the same. -/
theorem load_results_empty_file :
    (∀ table : List Row,
      loadOutcome (some []) table = ([], false, some (0, 0, 0))) ∧
    (∀ table : List Row,
      loadOutcome
          (some (String.toList "Type,FilePath,FileName,Line,Term,Match\r\n"))
          table
        = ([], false, some (0, 0, 0))) := by
  constructor
  · intro table
    rfl
  · intro table
    rfl

end WordSearch
